import Mathlib

/-!
Verification of the MIDAS k-mer signature engine core.

The development shallowly embeds the Cython sources of the repository:

* `midas/cython/metrics.pyx` (later revision, the one whose
  `c_jaccard_coords` carries the explicit `u == 0` guard): the Jaccard
  similarity kernel `c_jaccard_coords` / `jaccard_coords` and the batch
  variant `c_jaccard_coords_col` / `jaccard_coords_col`.
* the k-mer/sequence Cython module: `CKmerSpec.__cinit__`,
  `c_kmer_to_index`, `c_index_to_kmer`, `nuc_complement`,
  `c_reverse_complement`.

Modelling conventions:

* Coordinate arrays become `List Int` (the Cython fused coordinate types
  are all integer types; only their ordering matters to the kernel).
* Byte strings become `List Nat`, one entry per byte value.
* `coords_t` is `np.uint32_t`, so the accumulator of `c_kmer_to_index`
  wraps modulo `2 ^ 32`; the wrap is written explicitly.
* The C `int` arithmetic of `CKmerSpec.__cinit__` is 32-bit: the shift
  `1 << (2 * k)` is computed modulo `2 ^ 32` and read back as a two's
  complement signed value before widening to the 64-bit `idx_len` field.
* The `SCORE_T` (`float32`) return value of the kernel is modelled by the
  exact rational value of the computed quotient; division by zero in `ℚ`
  yields `0`, and the kernel's own `u == 0` branch is kept explicit anyway.
* The `prange` loop of `c_jaccard_coords_col` is modelled as a fold over an
  arbitrary schedule `order` (the list of member indices in the order the
  workers happen to process them), writing into the output buffer with
  `List.set`; the sequential wrapper uses the member-order schedule.
-/

namespace Midas

/-! ### Similarity kernel: `c_jaccard_coords` (metrics.pyx lines 124-170)

The while loop
```
while i < N and j < M:
    a = coords1[i]; b = coords2[j]
    u += 1
    if a <= b: i += 1
    if b <= a: j += 1
u += N - i
u += M - j
```
consumes the two arrays from the front; `mergeUnion` is the loop written as
recursion on the unconsumed suffixes, returning the final `u`.  When one
array is exhausted the loop stops and the remaining lengths are added,
which is the first two equations. -/
def mergeUnion : List Int → List Int → Nat
  | [], ys => ys.length
  | x :: xs, [] => (x :: xs).length
  | a :: xs, b :: ys =>
      1 + (if a ≤ b then
             (if b ≤ a then mergeUnion xs ys else mergeUnion xs (b :: ys))
           else mergeUnion (a :: xs) ys)
termination_by xs ys => xs.length + ys.length
decreasing_by all_goals simp_wf <;> omega

/-- Function `c_jaccard_coords` (metrics.pyx lines 124-170): run the merge loop to
obtain the union counter `u`, return `0` when `u == 0`, otherwise
`(N + M - u) / u` (the float32 quotient, modelled exactly in `ℚ`). -/
def c_jaccard_coords (coords1 coords2 : List Int) : ℚ :=
  let N : ℕ := coords1.length
  let M : ℕ := coords2.length
  let u : ℕ := mergeUnion coords1 coords2
  if u = 0 then 0
  else ((N : ℚ) + (M : ℚ) - (u : ℚ)) / (u : ℚ)

/-- Python wrapper `jaccard_coords` (metrics.pyx lines 94-110): calls
`c_jaccard_coords` directly. -/
def jaccard_coords (coords1 coords2 : List Int) : ℚ :=
  c_jaccard_coords coords1 coords2

/-! ### One iteration of the merge loop, for the termination claim -/

/-- State transformer `mergeStep` is the body of the while loop of `c_jaccard_coords` acting
on the state `(i, j, u)` of cursor positions and union counter; it applies
one iteration when the guard `i < N and j < M` holds and leaves the state
unchanged otherwise. -/
def mergeStep (coords1 coords2 : List Int) :
    Nat × Nat × Nat → Nat × Nat × Nat
  | (i, j, u) =>
    if i < coords1.length ∧ j < coords2.length then
      let a := coords1.getD i 0
      let b := coords2.getD j 0
      let u2 := u + 1
      let i2 := if a ≤ b then i + 1 else i
      let j2 := if b ≤ a then j + 1 else j
      (i2, j2, u2)
    else (i, j, u)

/-- The loop guard `i < N and j < M` of the merge loop. -/
def mergeGuard (coords1 coords2 : List Int) (s : Nat × Nat × Nat) : Prop :=
  s.1 < coords1.length ∧ s.2.1 < coords2.length

instance (coords1 coords2 : List Int) (s : Nat × Nat × Nat) :
    Decidable (mergeGuard coords1 coords2 s) := by
  unfold mergeGuard; infer_instance

/-! ### Batch kernel: `c_jaccard_coords_col` (metrics.pyx lines 213-232) -/

/-- The slice `ref_coords[ref_bounds[i] : ref_bounds[i+1]]` holding the
`i`-th member of the reference collection. -/
def sliceRef (ref_coords : List Int) (ref_bounds : List Nat) (i : Nat) :
    List Int :=
  (ref_coords.take (ref_bounds.getD (i + 1) 0)).drop (ref_bounds.getD i 0)

/-- Function `c_jaccard_coords_col` (metrics.pyx lines 213-232): the `prange` loop
```
for i in prange(N, schedule='dynamic'):
    begin = ref_bounds[i]
    end = ref_bounds[i+1]
    out[i] = c_jaccard_coords(query, ref_coords[begin:end])
```
modelled over an explicit schedule `order`: the member indices in the order
in which the workers process them.  Each processed index `i` writes the
score of member `i` into slot `i` of the output buffer. -/
def c_jaccard_coords_col (query ref_coords : List Int)
    (ref_bounds : List Nat) (order : List Nat) (out : List ℚ) : List ℚ :=
  order.foldl
    (fun o i => o.set i (c_jaccard_coords query (sliceRef ref_coords ref_bounds i)))
    out

/-- Python wrapper `jaccard_coords_col` (metrics.pyx lines 173-208):
allocates an output array of length `len(ref_bounds) - 1` and runs
`c_jaccard_coords_col` over all member indices.  The wrapper is modelled
with the member-order schedule; the scheduling-independence of the result
is proved, not assumed. -/
def jaccard_coords_col (query ref_coords : List Int)
    (ref_bounds : List Nat) : List ℚ :=
  c_jaccard_coords_col query ref_coords ref_bounds
    (List.range (ref_bounds.length - 1))
    (List.replicate (ref_bounds.length - 1) 0)

/-! ### Nucleotide codec: `nuc_complement`, `c_reverse_complement`

Byte values: A=65, C=67, G=71, T=84, a=97, c=99, g=103, t=116. -/

/-- Function `nuc_complement` (seqs.pyx lines 149-173): the if/elif chain mapping
each of the eight valid nucleotide byte codes to its Watson-Crick
complement in the same case, and returning any other byte unchanged. -/
def nuc_complement (nuc : Nat) : Nat :=
  if nuc = 65 then 84
  else if nuc = 97 then 116
  else if nuc = 84 then 65
  else if nuc = 116 then 97
  else if nuc = 71 then 67
  else if nuc = 103 then 99
  else if nuc = 67 then 71
  else if nuc = 99 then 103
  else nuc

/-- The eight valid nucleotide byte codes (both cases). -/
def nucLetters : List Nat := [65, 97, 67, 99, 71, 103, 84, 116]

/-- Function `c_reverse_complement` (seqs.pyx lines 176-187): the loop
`for i in range(l): out[l - i - 1] = nuc_complement(seq[i])`, written over
the output positions: `out[j] = nuc_complement(seq[l - 1 - j])`. -/
def c_reverse_complement (seq : List Nat) : List Nat :=
  (List.range seq.length).map
    (fun j => nuc_complement (seq.getD (seq.length - 1 - j) 0))

/-- Python wrapper `reverse_complement` (seqs.pyx lines 61-83): allocates a
length-`l + 1` buffer, fills it with `c_reverse_complement`, writes a
trailing NUL (`buf[l] = 0`), and returns `<bytes>buf` — Cython's
`char*`-to-`bytes` conversion reads up to the first NUL byte, so the
returned byte string is the buffer truncated at its first embedded zero
byte. -/
def reverse_complement (seq : List Nat) : List Nat :=
  (c_reverse_complement seq).takeWhile (fun b => b != 0)

/-! ### K-mer encoder: `c_kmer_to_index`, `c_index_to_kmer`

`coords_t` is `np.uint32_t`: the accumulator arithmetic is modulo
`2 ^ 32`. -/

/-- The loop of `c_kmer_to_index` (seqs.pyx lines 100-113) over the
remaining bytes, carrying the accumulator `idx`:
```
for i in range(k):
    idx <<= 2
    c = kmer[i] & 0b11011111  # To upper case
    if c == 'A': idx += 0
    elif c == 'C': idx += 1
    elif c == 'G': idx += 2
    elif c == 'T': idx += 3
    else: raise ValueError(kmer[i])
```
The `uint32` left shift wraps modulo `2 ^ 32` (the subsequent `+= d` with
`d < 4` cannot carry out of 32 bits because the shifted value is a
multiple of 4).  The raised `ValueError(kmer[i])` becomes
`Except.error` carrying the offending byte. -/
def kmerToIndexLoop : List Nat → Nat → Except Nat Nat
  | [], idx => Except.ok idx
  | byte :: rest, idx =>
    let idx2 := (idx <<< 2) % 2 ^ 32
    let c := byte &&& 223
    if c = 65 then kmerToIndexLoop rest (idx2 + 0)
    else if c = 67 then kmerToIndexLoop rest (idx2 + 1)
    else if c = 71 then kmerToIndexLoop rest (idx2 + 2)
    else if c = 84 then kmerToIndexLoop rest (idx2 + 3)
    else Except.error byte

/-- Function `c_kmer_to_index` (seqs.pyx lines 86-115): run the encoding loop with
accumulator `idx = 0` over the whole byte string. -/
def c_kmer_to_index (kmer : List Nat) : Except Nat Nat :=
  kmerToIndexLoop kmer 0

/-- Python wrapper `kmer_to_index` (seqs.pyx lines 26-34): calls
`c_kmer_to_index` on the bytes of the k-mer. -/
def kmer_to_index (kmer : List Nat) : Except Nat Nat :=
  c_kmer_to_index kmer

/-- A byte is a valid nucleotide code for the encoder if masking with
`0b11011111` yields one of 'A', 'C', 'G', 'T'; i.e. it is one of the eight
ASCII letters `AaCcGgTt`. -/
def isNucByte (byte : Nat) : Prop :=
  byte &&& 223 = 65 ∨ byte &&& 223 = 67 ∨ byte &&& 223 = 71 ∨ byte &&& 223 = 84

instance (byte : Nat) : Decidable (isNucByte byte) := by
  unfold isNucByte; infer_instance

/-- Function `c_index_to_kmer` (seqs.pyx lines 118-146): the loop
```
for i in range(k):
    nuc_index = index % 4
    nuc = 'A'/'C'/'G'/'T' according to nuc_index
    out[k - i - 1] = nuc
    index = index / 4
```
written as recursion on `k`: iteration `i = 0` writes the last output
byte from `index % 4`, and the remaining `k - 1` front bytes are produced
from `index / 4` (`coords_t` is unsigned, so `%` and `/` are the plain
Euclidean operations). -/
def c_index_to_kmer : Nat → Nat → List Nat
  | _, 0 => []
  | index, k + 1 =>
    let nuc : Nat :=
      if index % 4 = 0 then 65
      else if index % 4 = 1 then 67
      else if index % 4 = 2 then 71
      else 84
    c_index_to_kmer (index / 4) k ++ [nuc]

/-- Python wrapper `index_to_kmer` (seqs.pyx lines 37-58): fills a length-k
buffer with `c_index_to_kmer`. -/
def index_to_kmer (index : Nat) (k : Nat) : List Nat :=
  c_index_to_kmer index k

/-! ### `CKmerSpec.__cinit__` (seqs.pyx lines 11-16)

The assignment `self.idx_len = 1 << (2 * self.k)` shifts the C `int`
literal `1` by `2 * k` bit positions in 32-bit `int` arithmetic; the
(possibly wrapped) 32-bit value is then read as a two's complement signed
integer and widened to the 64-bit `np.intp_t` field `idx_len`.  For
`2 * k ≥ 32` the C shift overflows (it is undefined behaviour in C; the
model wraps the shifted value modulo `2 ^ 32`, and no resolution of the
undefined behaviour can produce `4 ^ 16 = 2 ^ 32`, which is not
representable in a 32-bit `int`). -/
def ckmerspec_idx_len (k : Nat) : Int :=
  let v : Nat := (1 <<< (2 * k)) % 2 ^ 32
  if v < 2 ^ 31 then (v : Int) else (v : Int) - 2 ^ 32

/-! ## Theorems -/

/-! ### The merge loop counts the union -/

/-- On strictly sorted inputs, the union counter computed by the two-cursor
merge is exactly the cardinality of the set union of the two inputs. -/
theorem mergeUnion_eq_card_union :
    ∀ (xs ys : List Int), xs.Sorted (· < ·) → ys.Sorted (· < ·) →
      mergeUnion xs ys = (xs.toFinset ∪ ys.toFinset).card
  | [], ys, _, hy => by
      rw [mergeUnion]
      simp only [List.toFinset_nil, Finset.empty_union]
      rw [List.toFinset_card_of_nodup hy.nodup]
  | x :: xs, [], hx, _ => by
      rw [mergeUnion]
      simp only [List.toFinset_nil, Finset.union_empty]
      rw [List.toFinset_card_of_nodup hx.nodup]
  | a :: xs, b :: ys, hx, hy => by
      have hxs : xs.Sorted (· < ·) := hx.of_cons
      have hys : ys.Sorted (· < ·) := hy.of_cons
      have hax : ∀ z ∈ xs, a < z := fun z hz => List.rel_of_sorted_cons hx z hz
      have hby : ∀ z ∈ ys, b < z := fun z hz => List.rel_of_sorted_cons hy z hz
      rcases lt_trichotomy a b with hab | hab | hab
      · -- a < b : only the first cursor advances
        rw [show mergeUnion (a :: xs) (b :: ys)
              = 1 + mergeUnion xs (b :: ys) by
            rw [mergeUnion]
            rw [if_pos hab.le, if_neg (not_le.mpr hab)]]
        have ha_not : a ∉ xs.toFinset ∪ (b :: ys).toFinset := by
          simp only [Finset.mem_union, List.mem_toFinset, List.mem_cons]
          rintro (h | h | h)
          · exact absurd (hax a h) (lt_irrefl a)
          · exact absurd hab (by simp [h])
          · exact absurd (hab.trans (hby a h)) (lt_irrefl a)
        have hset : (a :: xs).toFinset ∪ (b :: ys).toFinset
            = insert a (xs.toFinset ∪ (b :: ys).toFinset) := by
          simp only [List.toFinset_cons, Finset.insert_union]
        rw [hset, Finset.card_insert_of_not_mem ha_not,
          mergeUnion_eq_card_union xs (b :: ys) hxs hy]
        omega
      · -- a = b : both cursors advance
        subst hab
        rw [show mergeUnion (a :: xs) (a :: ys) = 1 + mergeUnion xs ys by
            rw [mergeUnion]; rw [if_pos le_rfl, if_pos le_rfl]]
        have ha_not : a ∉ xs.toFinset ∪ ys.toFinset := by
          simp only [Finset.mem_union, List.mem_toFinset]
          rintro (h | h)
          · exact absurd (hax a h) (lt_irrefl a)
          · exact absurd (hby a h) (lt_irrefl a)
        have hset : (a :: xs).toFinset ∪ (a :: ys).toFinset
            = insert a (xs.toFinset ∪ ys.toFinset) := by
          simp only [List.toFinset_cons, Finset.insert_union,
            Finset.union_insert, Finset.insert_idem]
        rw [hset, Finset.card_insert_of_not_mem ha_not,
          mergeUnion_eq_card_union xs ys hxs hys]
        omega
      · -- b < a : only the second cursor advances
        rw [show mergeUnion (a :: xs) (b :: ys)
              = 1 + mergeUnion (a :: xs) ys by
            rw [mergeUnion]; rw [if_neg (not_le.mpr hab)]]
        have hb_not : b ∉ (a :: xs).toFinset ∪ ys.toFinset := by
          simp only [Finset.mem_union, List.mem_toFinset, List.mem_cons]
          rintro ((h | h) | h)
          · exact absurd hab (by simp [h])
          · exact absurd (hab.trans (hax b h)) (lt_irrefl b)
          · exact absurd (hby b h) (lt_irrefl b)
        have hset : (a :: xs).toFinset ∪ (b :: ys).toFinset
            = insert b ((a :: xs).toFinset ∪ ys.toFinset) := by
          simp only [List.toFinset_cons, Finset.union_insert]
        rw [hset, Finset.card_insert_of_not_mem hb_not,
          mergeUnion_eq_card_union (a :: xs) ys hx hys]
        omega
termination_by xs ys => xs.length + ys.length
decreasing_by all_goals simp_wf <;> omega

/-- C1: for strictly increasing, duplicate-free coordinate arrays `A` (length
`N`) and `B` (length `M`), `jaccard_coords A B` returns `(N + M - U) / U`
where `U` is the union size computed by the two-cursor linear merge — which
equals the cardinality of the set union — i.e. the Jaccard coefficient
`|A ∩ B| / |A ∪ B|`.  (The float32 return value is modelled by the exact
rational quotient; the value `1/2` of the spec's small example is exactly
representable.)  The witness instantiates the spec's example
`A = [1,3,5]`, `B = [3,5,7]`. -/
theorem jaccard_coords_is_jaccard_index (xs ys : List Int)
    (hx : xs.Sorted (· < ·)) (hy : ys.Sorted (· < ·)) :
    mergeUnion xs ys = (xs.toFinset ∪ ys.toFinset).card ∧
    jaccard_coords xs ys
      = ((xs.toFinset ∩ ys.toFinset).card : ℚ)
          / ((xs.toFinset ∪ ys.toFinset).card : ℚ) := by
  have hu := mergeUnion_eq_card_union xs ys hx hy
  refine ⟨hu, ?_⟩
  have hNx : xs.toFinset.card = xs.length := List.toFinset_card_of_nodup hx.nodup
  have hMy : ys.toFinset.card = ys.length := List.toFinset_card_of_nodup hy.nodup
  have hie : (xs.toFinset ∪ ys.toFinset).card + (xs.toFinset ∩ ys.toFinset).card
      = xs.toFinset.card + ys.toFinset.card :=
    Finset.card_union_add_card_inter _ _
  simp only [jaccard_coords, c_jaccard_coords]
  by_cases h0 : mergeUnion xs ys = 0
  · rw [if_pos h0]
    have hcard0 : (xs.toFinset ∪ ys.toFinset).card = 0 := by omega
    have hint0 : (xs.toFinset ∩ ys.toFinset).card = 0 := by
      have hle := Finset.card_le_card
        (Finset.inter_subset_union (s := xs.toFinset) (t := ys.toFinset))
      omega
    rw [hcard0, hint0]
    norm_num
  · rw [if_neg h0]
    rw [hu] at h0 ⊢
    have hcast : ((xs.toFinset ∪ ys.toFinset).card : ℚ)
        + ((xs.toFinset ∩ ys.toFinset).card : ℚ)
        = (xs.length : ℚ) + (ys.length : ℚ) := by
      exact_mod_cast (by omega :
        (xs.toFinset ∪ ys.toFinset).card + (xs.toFinset ∩ ys.toFinset).card
          = xs.length + ys.length)
    congr 1
    linarith

/-- Witness for C1 at the spec's example `A = [1,3,5]`, `B = [3,5,7]`,
together with the concrete value `1/2`. -/
theorem jaccard_coords_is_jaccard_index_witness :
    (mergeUnion [1, 3, 5] [3, 5, 7]
        = (([1, 3, 5] : List Int).toFinset ∪ ([3, 5, 7] : List Int).toFinset).card ∧
      jaccard_coords [1, 3, 5] [3, 5, 7]
        = ((([1, 3, 5] : List Int).toFinset ∩ ([3, 5, 7] : List Int).toFinset).card : ℚ)
            / ((([1, 3, 5] : List Int).toFinset ∪ ([3, 5, 7] : List Int).toFinset).card : ℚ)) ∧
    jaccard_coords [1, 3, 5] [3, 5, 7] = 1 / 2 :=
  ⟨jaccard_coords_is_jaccard_index [1, 3, 5] [3, 5, 7] (by decide) (by decide),
   by simp [jaccard_coords, c_jaccard_coords, mergeUnion]; norm_num⟩

/-- C4: on two empty coordinate arrays the merge loop never runs, the union
counter `u` stays `0`, and `jaccard_coords` takes the explicit `u == 0`
branch and returns the score `0` instead of dividing by zero. -/
theorem jaccard_coords_empty_empty :
    mergeUnion ([] : List Int) ([] : List Int) = 0 ∧
    jaccard_coords ([] : List Int) ([] : List Int) = 0 := by
  constructor
  · rw [mergeUnion]; rfl
  · simp [jaccard_coords, c_jaccard_coords, mergeUnion]

/-- Each guarded iteration of the merge loop strictly increases `i + j`:
at least one of `a <= b`, `b <= a` holds, so at least one cursor advances. -/
theorem mergeStep_progress (xs ys : List Int) (i j u : Nat)
    (hi : i < xs.length) (hj : j < ys.length) :
    i + j < (mergeStep xs ys (i, j, u)).1 + (mergeStep xs ys (i, j, u)).2.1 := by
  simp only [mergeStep, if_pos (And.intro hi hj)]
  split_ifs with h1 h2 h2 <;> omega

/-- Fuel-indexed halting: once `i + j + fuel` reaches `N + M`, the loop
guard fails within `fuel` further iterations. -/
theorem mergeLoop_halts (xs ys : List Int) :
    ∀ (fuel i j u : Nat), xs.length + ys.length ≤ i + j + fuel →
      ∃ n ≤ fuel, ¬ mergeGuard xs ys ((mergeStep xs ys)^[n] (i, j, u)) := by
  intro fuel
  induction fuel with
  | zero =>
      intro i j u hfuel
      refine ⟨0, le_rfl, ?_⟩
      intro hg
      rcases hg with ⟨hg1, hg2⟩
      simp only [Function.iterate_zero, id] at hg1 hg2
      omega
  | succ fuel ih =>
      intro i j u hfuel
      by_cases hg : mergeGuard xs ys (i, j, u)
      · rcases hg with ⟨hg1, hg2⟩
        have hprog := mergeStep_progress xs ys i j u hg1 hg2
        obtain ⟨n, hn, hdone⟩ :=
          ih (mergeStep xs ys (i, j, u)).1 (mergeStep xs ys (i, j, u)).2.1
            (mergeStep xs ys (i, j, u)).2.2 (by omega)
        refine ⟨n + 1, by omega, ?_⟩
        rw [Function.iterate_succ_apply]
        have heta : ((mergeStep xs ys (i, j, u)).1,
            (mergeStep xs ys (i, j, u)).2.1,
            (mergeStep xs ys (i, j, u)).2.2) = mergeStep xs ys (i, j, u) := rfl
        rw [heta] at hdone
        exact hdone
      · exact ⟨0, Nat.zero_le _, by simpa using hg⟩

/-- C10: the two-cursor merge loop of `c_jaccard_coords` terminates on every
pair of input arrays, sorted or not.  In each guarded iteration at least one
of `a <= b` and `b <= a` holds, so at least one cursor strictly advances and
`i + j` strictly increases; consequently, starting from `(0, 0, 0)`, the
loop guard fails after at most `N + M` iterations. -/
theorem merge_loop_terminates (xs ys : List Int) :
    (∀ i j u, i < xs.length → j < ys.length →
      i + j < (mergeStep xs ys (i, j, u)).1 + (mergeStep xs ys (i, j, u)).2.1) ∧
    ∃ n, n ≤ xs.length + ys.length ∧
      ¬ mergeGuard xs ys ((mergeStep xs ys)^[n] (0, 0, 0)) := by
  constructor
  · intro i j u hi hj
    exact mergeStep_progress xs ys i j u hi hj
  · obtain ⟨n, hn, hdone⟩ :=
      mergeLoop_halts xs ys (xs.length + ys.length) 0 0 0 (by omega)
    exact ⟨n, hn, hdone⟩

/-- Witness for C10 on the unsorted pair `[3, 1]`, `[2]`. -/
theorem merge_loop_terminates_witness :
    (0 + 0 < (mergeStep [3, 1] [2] (0, 0, 0)).1
        + (mergeStep [3, 1] [2] (0, 0, 0)).2.1) ∧
    ∃ n, n ≤ ([3, 1] : List Int).length + ([2] : List Int).length ∧
      ¬ mergeGuard [3, 1] [2] ((mergeStep [3, 1] [2])^[n] (0, 0, 0)) :=
  ⟨(merge_loop_terminates [3, 1] [2]).1 0 0 0 (by decide) (by decide),
   (merge_loop_terminates [3, 1] [2]).2⟩

/-! ### Batch kernel lemmas -/

/-- Unfolding one scheduled member of the batch fold. -/
theorem c_jaccard_coords_col_cons (q rc : List Int) (rb : List Nat)
    (j : Nat) (rest : List Nat) (out : List ℚ) :
    c_jaccard_coords_col q rc rb (j :: rest) out
      = c_jaccard_coords_col q rc rb rest
          (out.set j (c_jaccard_coords q (sliceRef rc rb j))) := rfl

/-- The batch fold writes with `List.set`, so it preserves the output
buffer's length. -/
theorem c_jaccard_coords_col_length (q rc : List Int) (rb : List Nat)
    (order : List Nat) :
    ∀ out : List ℚ,
      (c_jaccard_coords_col q rc rb order out).length = out.length := by
  induction order with
  | nil => intro out; rfl
  | cons j rest ih =>
      intro out
      rw [c_jaccard_coords_col_cons, ih]
      exact List.length_set ..

/-- Slots whose index is never scheduled are left untouched by the batch
fold. -/
theorem c_jaccard_coords_col_not_scheduled (q rc : List Int) (rb : List Nat)
    (i : Nat) :
    ∀ (order : List Nat) (out : List ℚ), i ∉ order →
      (c_jaccard_coords_col q rc rb order out)[i]? = out[i]? := by
  intro order
  induction order with
  | nil => intro out _; rfl
  | cons j rest ih =>
      intro out h
      simp only [List.mem_cons, not_or] at h
      rw [c_jaccard_coords_col_cons, ih _ h.2]
      exact List.getElem?_set_ne (fun heq => h.1 heq.symm)

/-- A slot whose index is scheduled at least once ends up holding the score
of its member, whatever the schedule order: every write to slot `i` writes
the same value `c_jaccard_coords q (sliceRef rc rb i)`, which depends only
on the read-only shared inputs. -/
theorem c_jaccard_coords_col_scheduled (q rc : List Int) (rb : List Nat)
    (i : Nat) :
    ∀ (order : List Nat) (out : List ℚ), i < out.length → i ∈ order →
      (c_jaccard_coords_col q rc rb order out)[i]?
        = some (c_jaccard_coords q (sliceRef rc rb i)) := by
  intro order
  induction order with
  | nil => intro out _ hmem; simp at hmem
  | cons j rest ih =>
      intro out hlen hmem
      rw [c_jaccard_coords_col_cons]
      by_cases hr : i ∈ rest
      · exact ih _ (by simpa using hlen) hr
      · have hij : i = j := by
          rcases List.mem_cons.mp hmem with h | h
          · exact h
          · exact absurd h hr
        subst hij
        rw [c_jaccard_coords_col_not_scheduled q rc rb i rest _ hr]
        exact List.getElem?_set_self (by simpa using hlen)

/-- C2: `jaccard_coords_col` returns exactly `n = len(ref_bounds) - 1`
scores; the `i`-th output slot holds
`jaccard_coords(query, ref_coords[ref_bounds[i] : ref_bounds[i+1]])`; and
the batch fold run under any schedule `order` that processes each member
exactly once (any permutation of `0..n-1`, modelling the unspecified
parallel completion order) produces the same output list, so output order
matches member order regardless of scheduling. -/
theorem jaccard_coords_col_spec (query ref_coords : List Int)
    (ref_bounds : List Nat) (order : List Nat)
    (hperm : order.Perm (List.range (ref_bounds.length - 1))) :
    (jaccard_coords_col query ref_coords ref_bounds).length
      = ref_bounds.length - 1 ∧
    (∀ i, i < ref_bounds.length - 1 →
      (jaccard_coords_col query ref_coords ref_bounds)[i]?
        = some (jaccard_coords query (sliceRef ref_coords ref_bounds i))) ∧
    c_jaccard_coords_col query ref_coords ref_bounds order
        (List.replicate (ref_bounds.length - 1) 0)
      = jaccard_coords_col query ref_coords ref_bounds := by
  have hpoint : ∀ ord : List Nat, ord.Perm (List.range (ref_bounds.length - 1)) →
      ∀ i, i < ref_bounds.length - 1 →
        (c_jaccard_coords_col query ref_coords ref_bounds ord
            (List.replicate (ref_bounds.length - 1) 0))[i]?
          = some (c_jaccard_coords query (sliceRef ref_coords ref_bounds i)) := by
    intro ord hp i hi
    apply c_jaccard_coords_col_scheduled
    · simpa using hi
    · exact hp.mem_iff.mpr (List.mem_range.mpr hi)
  refine ⟨?_, ?_, ?_⟩
  · unfold jaccard_coords_col
    rw [c_jaccard_coords_col_length]
    exact List.length_replicate ..
  · intro i hi
    exact hpoint _ (List.Perm.refl _) i hi
  · apply List.ext_getElem?
    intro k
    by_cases hk : k < ref_bounds.length - 1
    · rw [hpoint order hperm k hk]
      unfold jaccard_coords_col
      rw [hpoint _ (List.Perm.refl _) k hk]
    · have h1 : (c_jaccard_coords_col query ref_coords ref_bounds order
          (List.replicate (ref_bounds.length - 1) 0)).length
            = ref_bounds.length - 1 := by
        rw [c_jaccard_coords_col_length]
        exact List.length_replicate ..
      have h2 : (jaccard_coords_col query ref_coords ref_bounds).length
          = ref_bounds.length - 1 := by
        unfold jaccard_coords_col
        rw [c_jaccard_coords_col_length]
        exact List.length_replicate ..
      rw [List.getElem?_eq_none (by omega), List.getElem?_eq_none (by omega)]

/-- Witness for C2: a collection with members `[1]` and `[2, 3]`, query
`[1, 3]`, scored under the reversed schedule `[1, 0]`. -/
theorem jaccard_coords_col_spec_witness :
    (jaccard_coords_col [1, 3] [1, 2, 3] [0, 1, 3]).length = 2 ∧
    (jaccard_coords_col [1, 3] [1, 2, 3] [0, 1, 3])[0]?
      = some (jaccard_coords [1, 3] (sliceRef [1, 2, 3] [0, 1, 3] 0)) ∧
    c_jaccard_coords_col [1, 3] [1, 2, 3] [0, 1, 3] [1, 0]
        (List.replicate 2 0)
      = jaccard_coords_col [1, 3] [1, 2, 3] [0, 1, 3] :=
  ⟨(jaccard_coords_col_spec [1, 3] [1, 2, 3] [0, 1, 3] [1, 0] (by decide)).1,
   (jaccard_coords_col_spec [1, 3] [1, 2, 3] [0, 1, 3] [1, 0] (by decide)).2.1
     0 (by decide),
   (jaccard_coords_col_spec [1, 3] [1, 2, 3] [0, 1, 3] [1, 0] (by decide)).2.2⟩

/-! ### Nucleotide codec lemmas -/

/-- A byte outside the eight valid nucleotide codes is returned unchanged
by `nuc_complement` (the final `else` branch). -/
theorem nuc_complement_of_not_letter {b : Nat} (h : b ∉ nucLetters) :
    nuc_complement b = b := by
  simp only [nucLetters, List.mem_cons, List.not_mem_nil, or_false,
    not_or] at h
  obtain ⟨h1, h2, h3, h4, h5, h6, h7, h8⟩ := h
  simp [nuc_complement, h1, h2, h3, h4, h5, h6, h7, h8]

/-- Complementation `nuc_complement` is an involution on every byte: the eight nucleotide
codes swap in complementary pairs within the same case, and every other
byte is a fixed point. -/
theorem nuc_complement_involutive (b : Nat) :
    nuc_complement (nuc_complement b) = b := by
  by_cases h : b ∈ nucLetters
  · simp only [nucLetters, List.mem_cons, List.not_mem_nil, or_false] at h
    rcases h with rfl | rfl | rfl | rfl | rfl | rfl | rfl | rfl <;> rfl
  · rw [nuc_complement_of_not_letter h, nuc_complement_of_not_letter h]

/-- The output buffer of `c_reverse_complement` is the reversed
complemented input. -/
theorem c_reverse_complement_eq (seq : List Nat) :
    c_reverse_complement seq = (seq.map nuc_complement).reverse := by
  apply List.ext_getElem
  · simp [c_reverse_complement]
  · intro i h1 h2
    have hi : i < seq.length := by
      simpa [c_reverse_complement] using h1
    have hlen : seq.length - 1 - i < seq.length := by omega
    simp only [c_reverse_complement, List.getElem_map, List.getElem_range,
      List.getElem_reverse, List.length_map]
    rw [List.getD_eq_getElem _ _ hlen]

/-- Bytes that are nonzero stay nonzero under complementation: the eight
nucleotide codes map among themselves and every other byte is returned
unchanged. -/
theorem nuc_complement_ne_zero {b : Nat} (h : b ≠ 0) :
    nuc_complement b ≠ 0 := by
  by_cases hm : b ∈ nucLetters
  · simp only [nucLetters, List.mem_cons, List.not_mem_nil, or_false] at hm
    rcases hm with rfl | rfl | rfl | rfl | rfl | rfl | rfl | rfl <;> decide
  · rw [nuc_complement_of_not_letter hm]
    exact h

/-- A list all of whose entries are nonzero is returned whole by the
NUL-scan (`takeWhile` of nonzero). -/
theorem takeWhile_ne_zero_eq_self :
    ∀ l : List Nat, (∀ b ∈ l, b ≠ 0) →
      l.takeWhile (fun b => b != 0) = l := by
  intro l
  induction l with
  | nil => intro _; rfl
  | cons hd tl ih =>
      intro h
      have hhd : hd ≠ 0 := h hd (List.mem_cons_self hd tl)
      rw [List.takeWhile_cons_of_pos (by simpa using hhd)]
      rw [ih (fun b hb => h b (List.mem_cons_of_mem hd hb))]

/-- If the input has no NUL byte, neither does the output buffer of
`c_reverse_complement`. -/
theorem c_reverse_complement_ne_zero (s : List Nat)
    (hnz : ∀ b ∈ s, b ≠ 0) :
    ∀ b ∈ c_reverse_complement s, b ≠ 0 := by
  intro b hb
  simp only [c_reverse_complement, List.mem_map, List.mem_range] at hb
  obtain ⟨j, hj, rfl⟩ := hb
  apply nuc_complement_ne_zero
  apply hnz
  have hidx : s.length - 1 - j < s.length := by omega
  rw [List.getD_eq_getElem _ _ hidx]
  exact List.getElem_mem hidx

/-- On a NUL-free input the wrapper's `<bytes>buf` conversion finds its
first NUL exactly at the terminator `buf[l]`, so the returned byte string
is the whole buffer. -/
theorem reverse_complement_eq_buffer (s : List Nat)
    (hnz : ∀ b ∈ s, b ≠ 0) :
    reverse_complement s = c_reverse_complement s := by
  unfold reverse_complement
  exact takeWhile_ne_zero_eq_self _ (c_reverse_complement_ne_zero s hnz)

/-- C6 counterexample: the claim fails on byte strings containing an
embedded NUL byte.  `nuc_complement 0 = 0`, so the complemented buffer of
`[0x00, 'A']` is `['T', 0x00]`, and the wrapper's `char*`-to-`bytes`
conversion truncates it at the embedded NUL: the program returns the
1-byte string `"T"`, not a string of the input's length 2 (and the NUL
byte does not appear at its reverse position). -/
theorem reverse_complement_nul_truncation :
    reverse_complement [0, 65] = [84] ∧
    (reverse_complement [0, 65]).length ≠ ([0, 65] : List Nat).length := by
  refine ⟨by decide, by decide⟩

/-- C6 (amended): for every byte string `s` of length `L` containing no
NUL byte (`0x00`), `reverse_complement s` returns the whole complemented
buffer: its length is exactly `L`, its byte at position `L - 1 - i` is
`nuc_complement` of `s[i]` — the Watson-Crick complement with case
preserved (`A↔T`, `C↔G`, upper- and lowercase pairs listed explicitly) —
and every byte of `s` outside the eight valid nucleotide codes appears
unchanged at its corresponding reverse position.  For inputs with an
embedded NUL the returned bytes is truncated at the first NUL of the
buffer — see the truncation counterexample.  (Purity is inherent in the
embedding: the function reads only its argument and owns its output
buffer.) -/
theorem reverse_complement_spec (s : List Nat) (hnz : ∀ b ∈ s, b ≠ 0) :
    reverse_complement s = c_reverse_complement s ∧
    (reverse_complement s).length = s.length ∧
    (∀ i, i < s.length →
      (reverse_complement s).getD (s.length - 1 - i) 0
        = nuc_complement (s.getD i 0)) ∧
    (∀ i, i < s.length → s.getD i 0 ∉ nucLetters →
      (reverse_complement s).getD (s.length - 1 - i) 0 = s.getD i 0) ∧
    (nuc_complement 65 = 84 ∧ nuc_complement 84 = 65 ∧
      nuc_complement 67 = 71 ∧ nuc_complement 71 = 67 ∧
      nuc_complement 97 = 116 ∧ nuc_complement 116 = 97 ∧
      nuc_complement 99 = 103 ∧ nuc_complement 103 = 99) := by
  have heq := reverse_complement_eq_buffer s hnz
  have hpoint : ∀ i, i < s.length →
      (c_reverse_complement s).getD (s.length - 1 - i) 0
        = nuc_complement (s.getD i 0) := by
    intro i hi
    have hidx : s.length - 1 - i < s.length := by omega
    have hmaplen : s.length - 1 - i
        < ((List.range s.length).map
            (fun j => nuc_complement (s.getD (s.length - 1 - j) 0))).length := by
      simpa using hidx
    show ((List.range s.length).map
        (fun j => nuc_complement (s.getD (s.length - 1 - j) 0))).getD
          (s.length - 1 - i) 0 = nuc_complement (s.getD i 0)
    rw [List.getD_eq_getElem _ _ hmaplen]
    simp only [List.getElem_map, List.getElem_range]
    congr 2
    omega
  refine ⟨heq, ?_, ?_, ?_, by decide⟩
  · rw [heq]
    simp [c_reverse_complement]
  · intro i hi
    rw [heq]
    exact hpoint i hi
  · intro i hi hout
    rw [heq, hpoint i hi, nuc_complement_of_not_letter hout]

/-- Witness for the amended C6 at `s = "ACGN"` (bytes `[65, 67, 71, 78]`,
NUL-free): length, the complemented position for `i = 0`, and pass-through
of the invalid byte `'N' = 78` at `i = 3`. -/
theorem reverse_complement_spec_witness :
    (reverse_complement [65, 67, 71, 78]).length
      = ([65, 67, 71, 78] : List Nat).length ∧
    (reverse_complement [65, 67, 71, 78]).getD
        (([65, 67, 71, 78] : List Nat).length - 1 - 0) 0
      = nuc_complement (([65, 67, 71, 78] : List Nat).getD 0 0) ∧
    (reverse_complement [65, 67, 71, 78]).getD
        (([65, 67, 71, 78] : List Nat).length - 1 - 3) 0
      = ([65, 67, 71, 78] : List Nat).getD 3 0 :=
  ⟨(reverse_complement_spec [65, 67, 71, 78] (by decide)).2.1,
   (reverse_complement_spec [65, 67, 71, 78] (by decide)).2.2.1 0 (by decide),
   (reverse_complement_spec [65, 67, 71, 78] (by decide)).2.2.2.1 3
     (by decide) (by decide)⟩

/-- C7 counterexample: the involution fails on byte strings containing an
embedded NUL byte.  `reverse_complement [0x00, 'A']` returns the truncated
1-byte string `"T"` (the complemented buffer `['T', 0x00]` is cut at its
NUL), and `reverse_complement "T" = "A" ≠ [0x00, 'A']`. -/
theorem reverse_complement_involution_nul :
    reverse_complement (reverse_complement [0, 65]) = [65] ∧
    ([65] : List Nat) ≠ [0, 65] := by
  refine ⟨by decide, by decide⟩

/-- C7 (amended): reverse complement is an involution on every byte string
containing no NUL byte (`0x00`), with non-ACGT bytes passing through; in
particular `reverse_complement "ACGN" = "NCGT"` (bytes
`[65,67,71,78] ↦ [78,67,71,84]`).  For inputs with an embedded NUL the
wrapper truncates at the NUL and the involution fails — see the
counterexample. -/
theorem reverse_complement_involution :
    (∀ s : List Nat, (∀ b ∈ s, b ≠ 0) →
      reverse_complement (reverse_complement s) = s) ∧
    reverse_complement [65, 67, 71, 78] = [78, 67, 71, 84] := by
  constructor
  · intro s hnz
    rw [reverse_complement_eq_buffer s hnz,
      reverse_complement_eq_buffer (c_reverse_complement s)
        (c_reverse_complement_ne_zero s hnz)]
    rw [c_reverse_complement_eq (c_reverse_complement s),
      c_reverse_complement_eq s, List.map_reverse, List.reverse_reverse,
      List.map_map]
    have hcomp : nuc_complement ∘ nuc_complement = id :=
      funext nuc_complement_involutive
    rw [hcomp, List.map_id]
  · decide

/-- Witness for the amended C7 on the NUL-free string `"ACGN"`. -/
theorem reverse_complement_involution_witness :
    reverse_complement (reverse_complement [65, 67, 71, 78])
      = [65, 67, 71, 78] :=
  reverse_complement_involution.1 [65, 67, 71, 78] (by decide)

/-! ### K-mer encoder lemmas -/

/-- The encoding loop succeeds on a byte string whose bytes are all valid
nucleotide codes, from any accumulator value. -/
theorem kmerToIndexLoop_ok :
    ∀ (s : List Nat) (idx : Nat), (∀ b ∈ s, isNucByte b) →
      ∃ n, kmerToIndexLoop s idx = Except.ok n := by
  intro s
  induction s with
  | nil => intro idx _; exact ⟨idx, rfl⟩
  | cons hd tl ih =>
      intro idx h
      have hhd : isNucByte hd := h hd (List.mem_cons_self hd tl)
      have htl : ∀ b ∈ tl, isNucByte b := fun b hb => h b (List.mem_cons_of_mem hd hb)
      rcases hhd with hc | hc | hc | hc <;>
        simp only [kmerToIndexLoop, hc] <;>
        [skip; rw [if_neg (by omega)]; rw [if_neg (by omega), if_neg (by omega)];
         rw [if_neg (by omega), if_neg (by omega), if_neg (by omega)]] <;>
        exact ih _ htl

/-- If the encoding loop fails, the byte carried by the error is a member
of the input and is not a valid nucleotide code. -/
theorem kmerToIndexLoop_error :
    ∀ (s : List Nat) (idx b : Nat), kmerToIndexLoop s idx = Except.error b →
      b ∈ s ∧ ¬ isNucByte b := by
  intro s
  induction s with
  | nil => intro idx b h; exact absurd h (by simp [kmerToIndexLoop])
  | cons hd tl ih =>
      intro idx b h
      rw [kmerToIndexLoop] at h
      split_ifs at h with h1 h2 h3 h4
      · rcases ih _ _ h with ⟨hmem, hbad⟩
        exact ⟨List.mem_cons_of_mem hd hmem, hbad⟩
      · rcases ih _ _ h with ⟨hmem, hbad⟩
        exact ⟨List.mem_cons_of_mem hd hmem, hbad⟩
      · rcases ih _ _ h with ⟨hmem, hbad⟩
        exact ⟨List.mem_cons_of_mem hd hmem, hbad⟩
      · rcases ih _ _ h with ⟨hmem, hbad⟩
        exact ⟨List.mem_cons_of_mem hd hmem, hbad⟩
      · have hb : b = hd := by
          have := h
          simp only [Except.error.injEq] at this
          exact this.symm
        subst hb
        exact ⟨List.mem_cons_self b tl, by
          intro hcontra
          rcases hcontra with hc | hc | hc | hc <;> omega⟩

/-- If some byte of the input is not a valid nucleotide code, the encoding
loop fails, from any accumulator value. -/
theorem kmerToIndexLoop_error_exists :
    ∀ (s : List Nat) (idx : Nat), (∃ b ∈ s, ¬ isNucByte b) →
      ∃ b, kmerToIndexLoop s idx = Except.error b := by
  intro s
  induction s with
  | nil => intro idx h; simp at h
  | cons hd tl ih =>
      intro idx h
      by_cases hhd : isNucByte hd
      · have htl : ∃ b ∈ tl, ¬ isNucByte b := by
          rcases h with ⟨b, hb, hbad⟩
          rcases List.mem_cons.mp hb with rfl | hbtl
          · exact absurd hhd hbad
          · exact ⟨b, hbtl, hbad⟩
        rcases hhd with hc | hc | hc | hc <;>
          simp only [kmerToIndexLoop, hc] <;>
          [skip; rw [if_neg (by omega)]; rw [if_neg (by omega), if_neg (by omega)];
           rw [if_neg (by omega), if_neg (by omega), if_neg (by omega)]] <;>
          exact ih _ htl
      · have h1 : ¬ hd &&& 223 = 65 := fun hc => hhd (Or.inl hc)
        have h2 : ¬ hd &&& 223 = 67 := fun hc => hhd (Or.inr (Or.inl hc))
        have h3 : ¬ hd &&& 223 = 71 := fun hc => hhd (Or.inr (Or.inr (Or.inl hc)))
        have h4 : ¬ hd &&& 223 = 84 := fun hc => hhd (Or.inr (Or.inr (Or.inr hc)))
        refine ⟨hd, ?_⟩
        rw [kmerToIndexLoop]
        rw [if_neg h1, if_neg h2, if_neg h3, if_neg h4]

/-- C5: `kmer_to_index s` fails — with an error identifying an offending
byte of `s` — if and only if some byte of `s` is outside `{A,C,G,T}`
case-insensitively; on all-valid inputs it succeeds, so no invalid byte is
ever silently dropped.  The spec's example `kmer_to_index "ACGN"` fails
identifying `'N' = 78`. -/
theorem kmer_to_index_error_iff :
    (∀ s : List Nat,
      ((∃ b, kmer_to_index s = Except.error b) ↔ ∃ b ∈ s, ¬ isNucByte b) ∧
      (∀ b, kmer_to_index s = Except.error b → b ∈ s ∧ ¬ isNucByte b) ∧
      ((∀ b ∈ s, isNucByte b) → ∃ n, kmer_to_index s = Except.ok n)) ∧
    kmer_to_index [65, 67, 71, 78] = Except.error 78 := by
  refine ⟨fun s => ⟨⟨?_, ?_⟩, ?_, ?_⟩, rfl⟩
  · rintro ⟨b, hb⟩
    rcases kmerToIndexLoop_error s 0 b hb with ⟨hmem, hbad⟩
    exact ⟨b, hmem, hbad⟩
  · intro h
    exact kmerToIndexLoop_error_exists s 0 h
  · intro b hb
    exact kmerToIndexLoop_error s 0 b hb
  · intro h
    exact kmerToIndexLoop_ok s 0 h

/-- Witness for C5: the error byte of `"ACGN"` is the invalid member
`'N' = 78`, and the all-valid input `"ACGT"` succeeds. -/
theorem kmer_to_index_error_iff_witness :
    (78 ∈ ([65, 67, 71, 78] : List Nat) ∧ ¬ isNucByte 78) ∧
    ∃ n, kmer_to_index [65, 67, 71, 84] = Except.ok n :=
  ⟨(kmer_to_index_error_iff.1 [65, 67, 71, 78]).2.1 78 rfl,
   (kmer_to_index_error_iff.1 [65, 67, 71, 84]).2.2 (by decide)⟩

/-- C9: `index_to_kmer index k` is total for every `k` and every index
value: it always returns a length-`k` byte string over `{A, C, G, T}`
(bytes `{65, 67, 71, 84}`), and only the low `2k` bits of `index` are
consumed, so `index_to_kmer index k = index_to_kmer (index % 4 ^ k) k` —
out-of-range high bits are ignored. -/
theorem index_to_kmer_total (index k : Nat) :
    (index_to_kmer index k).length = k ∧
    (∀ b ∈ index_to_kmer index k, b = 65 ∨ b = 67 ∨ b = 71 ∨ b = 84) ∧
    index_to_kmer index k = index_to_kmer (index % 4 ^ k) k := by
  induction k generalizing index with
  | zero =>
      refine ⟨rfl, ?_, rfl⟩
      intro b hb
      simp [index_to_kmer, c_index_to_kmer] at hb
  | succ k ih =>
      obtain ⟨ihlen, ihmem, ihmod⟩ := ih (index / 4)
      refine ⟨?_, ?_, ?_⟩
      · show (c_index_to_kmer index (k + 1)).length = k + 1
        rw [c_index_to_kmer]
        simp only [List.length_append, List.length_cons, List.length_nil]
        rw [show (c_index_to_kmer (index / 4) k).length = k from ihlen]
      · intro b hb
        rw [show index_to_kmer index (k + 1) = c_index_to_kmer index (k + 1)
            from rfl, c_index_to_kmer] at hb
        rcases List.mem_append.mp hb with hb | hb
        · exact ihmem b hb
        · simp only [List.mem_cons, List.not_mem_nil, or_false] at hb
          subst hb
          split_ifs <;> simp
      · show c_index_to_kmer index (k + 1)
            = c_index_to_kmer (index % 4 ^ (k + 1)) (k + 1)
        rw [c_index_to_kmer, c_index_to_kmer]
        have hdigit : index % 4 ^ (k + 1) % 4 = index % 4 :=
          Nat.mod_mod_of_dvd index (dvd_pow_self 4 (Nat.succ_ne_zero k))
        have hdiv : index % 4 ^ (k + 1) / 4 = index / 4 % 4 ^ k := by
          rw [show (4 : Nat) ^ (k + 1) = 4 ^ k * 4 by ring]
          exact Nat.mod_mul_left_div_self index 4 (4 ^ k)
        rw [hdigit, hdiv]
        exact congrArg
          (fun l => l ++ [if index % 4 = 0 then 65
            else if index % 4 = 1 then 67
            else if index % 4 = 2 then 71 else 84]) ihmod

/-- Witness for C9 at the out-of-range index `64 = 4 ^ 3` with `k = 2`:
the output has length 2, its first byte is a nucleotide letter, and the
high bits are ignored (`64 % 4 ^ 2 = 0`). -/
theorem index_to_kmer_total_witness :
    (index_to_kmer 64 2).length = 2 ∧
    (65 = 65 ∨ 65 = 67 ∨ 65 = 71 ∨ 65 = 84) ∧
    index_to_kmer 64 2 = index_to_kmer (64 % 4 ^ 2) 2 :=
  ⟨(index_to_kmer_total 64 2).1,
   (index_to_kmer_total 64 2).2.1 65 (by decide),
   (index_to_kmer_total 64 2).2.2⟩

/-- The encoding loop splits over appends: a failure in the front aborts,
a success threads its accumulator into the back. -/
theorem kmerToIndexLoop_append (xs ys : List Nat) :
    ∀ idx, kmerToIndexLoop (xs ++ ys) idx
      = (kmerToIndexLoop xs idx).bind (fun v => kmerToIndexLoop ys v) := by
  induction xs with
  | nil => intro idx; rfl
  | cons hd tl ih =>
      intro idx
      simp only [List.cons_append, kmerToIndexLoop]
      split_ifs <;> first | exact ih _ | rfl

/-- Encoding one valid byte: shifting the accumulator wraps modulo
`2 ^ 32`, which is the identity while the result still fits 32 bits, and
the byte's 2-bit code is added. -/
theorem kmerToIndexLoop_valid_byte (b v d : Nat)
    (hb : b &&& 223 = (if d = 0 then 65 else if d = 1 then 67
      else if d = 2 then 71 else 84))
    (hd : d < 4) (hv : 4 * v + 3 < 2 ^ 32) :
    kmerToIndexLoop [b] v = Except.ok (4 * v + d) := by
  have hsh : (v <<< 2) % 2 ^ 32 = 4 * v := by
    rw [Nat.shiftLeft_eq, show v * 2 ^ 2 = 4 * v by ring]
    exact Nat.mod_eq_of_lt (by omega)
  interval_cases d
  · norm_num at hb
    rw [kmerToIndexLoop, hb, if_pos rfl, kmerToIndexLoop, hsh]
  · norm_num at hb
    rw [kmerToIndexLoop, hb, if_neg (by norm_num), if_pos rfl,
      kmerToIndexLoop, hsh]
  · norm_num at hb
    rw [kmerToIndexLoop, hb, if_neg (by norm_num), if_neg (by norm_num),
      if_pos rfl, kmerToIndexLoop, hsh]
  · norm_num at hb
    rw [kmerToIndexLoop, hb, if_neg (by norm_num), if_neg (by norm_num),
      if_neg (by norm_num), if_pos rfl, kmerToIndexLoop, hsh]

/-- Decoding one 2-bit digit: `c_index_to_kmer (4 * n + d) (k + 1)` peels
off the digit `d` as the last output byte. -/
theorem c_index_to_kmer_step (n d k : Nat) (hd : d < 4) :
    c_index_to_kmer (4 * n + d) (k + 1)
      = c_index_to_kmer n k
          ++ [if d = 0 then 65 else if d = 1 then 67
              else if d = 2 then 71 else 84] := by
  rw [c_index_to_kmer,
    show (4 * n + d) / 4 = n by omega,
    show (4 * n + d) % 4 = d by omega]

/-- The index round trip for widths that fit the `uint32` accumulator:
for `k ≤ 16` and `i < 4 ^ k`, re-encoding the decoded k-mer returns `i`. -/
theorem kmerToIndexLoop_c_index_to_kmer :
    ∀ (k : Nat), k ≤ 16 → ∀ i, i < 4 ^ k →
      kmerToIndexLoop (c_index_to_kmer i k) 0 = Except.ok i := by
  intro k
  induction k with
  | zero =>
      intro _ i hi
      have : i = 0 := by simpa using hi
      subst this
      rfl
  | succ k ih =>
      intro hk i hi
      have hk' : k ≤ 16 := by omega
      have hpow : (4 : Nat) ^ (k + 1) = 4 ^ k * 4 := by ring
      have hdiv : i / 4 < 4 ^ k := by
        rw [hpow] at hi
        exact Nat.div_lt_of_lt_mul (by omega)
      have h32 : i < 2 ^ 32 := by
        have h16 : (4 : Nat) ^ (k + 1) ≤ 4 ^ 16 :=
          Nat.pow_le_pow_right (by norm_num) hk
        have : (4 : Nat) ^ 16 = 2 ^ 32 := by norm_num
        omega
      have hsplit : i = 4 * (i / 4) + i % 4 := by omega
      rw [show c_index_to_kmer i (k + 1)
          = c_index_to_kmer (4 * (i / 4) + i % 4) (k + 1) by rw [← hsplit]]
      rw [c_index_to_kmer_step (i / 4) (i % 4) k (by omega)]
      rw [kmerToIndexLoop_append]
      rw [show kmerToIndexLoop (c_index_to_kmer (i / 4) k) 0 = Except.ok (i / 4)
        from ih hk' (i / 4) hdiv]
      show kmerToIndexLoop _ (i / 4) = Except.ok i
      rw [kmerToIndexLoop_valid_byte _ (i / 4) (i % 4)
        (by rcases (by omega : i % 4 = 0 ∨ i % 4 = 1 ∨ i % 4 = 2 ∨ i % 4 = 3)
              with h | h | h | h <;> rw [h] <;> decide)
        (by omega) (by omega)]
      congr 1
      omega

/-- The string round trip for inputs of length at most 16: encoding a
valid byte string and decoding at its length returns its uppercase form
(for the eight valid codes, uppercasing is exactly the `& 0b11011111`
mask the encoder applies). -/
theorem encode_decode_aux :
    ∀ s : List Nat, s.length ≤ 16 → (∀ b ∈ s, isNucByte b) →
      ∃ n, kmer_to_index s = Except.ok n ∧ n < 4 ^ s.length ∧
        index_to_kmer n s.length = s.map (fun b => b &&& 223) := by
  intro s
  induction s using List.reverseRecOn with
  | nil => exact fun _ _ => ⟨0, rfl, by norm_num, rfl⟩
  | append_singleton t b ih =>
      intro hlen hval
      have hlen_t : t.length ≤ 15 := by
        rw [List.length_append, List.length_singleton] at hlen
        omega
      obtain ⟨n, hok, hbound, hdec⟩ :=
        ih (by omega) (fun x hx => hval x (List.mem_append_left _ hx))
      have hvb : isNucByte b :=
        hval b (List.mem_append_right _ (List.mem_singleton.mpr rfl))
      have hn32 : 4 * n + 3 < 2 ^ 32 := by
        have h15 : (4 : Nat) ^ t.length ≤ 4 ^ 15 :=
          Nat.pow_le_pow_right (by norm_num) hlen_t
        have : (4 : Nat) ^ 15 * 4 < 2 ^ 32 + 1 := by norm_num
        omega
      have hd : ∃ d, d < 4 ∧
          b &&& 223 = (if d = 0 then 65 else if d = 1 then 67
            else if d = 2 then 71 else 84) := by
        rcases hvb with hc | hc | hc | hc
        · exact ⟨0, by omega, by simp [hc]⟩
        · exact ⟨1, by omega, by simp [hc]⟩
        · exact ⟨2, by omega, by simp [hc]⟩
        · exact ⟨3, by omega, by simp [hc]⟩
      obtain ⟨d, hd4, hbd⟩ := hd
      refine ⟨4 * n + d, ?_, ?_, ?_⟩
      · show kmerToIndexLoop (t ++ [b]) 0 = Except.ok (4 * n + d)
        rw [kmerToIndexLoop_append]
        rw [show kmerToIndexLoop t 0 = Except.ok n from hok]
        show kmerToIndexLoop [b] n = Except.ok (4 * n + d)
        exact kmerToIndexLoop_valid_byte b n d hbd hd4 hn32
      · rw [List.length_append, List.length_singleton, pow_succ]
        omega
      · rw [List.length_append, List.length_singleton]
        show c_index_to_kmer (4 * n + d) (t.length + 1) = _
        rw [c_index_to_kmer_step n d t.length hd4]
        rw [List.map_append, List.map_singleton, hbd]
        exact congrArg
          (· ++ [if d = 0 then 65 else if d = 1 then 67
            else if d = 2 then 71 else 84]) hdec

/-- C3 counterexample: the claim's string round trip fails for k-mers
longer than 16.  The 17-byte nucleotide string `s = "C" ++ "A" * 16`
(already uppercase, so `uppercase s = s`) encodes to
`4 ^ 16 mod 2 ^ 32 = 0` because the `uint32` accumulator wraps, and
decoding `0` at length 17 returns `"A" * 17 ≠ s`. -/
theorem kmer_roundtrip_truncation :
    ((67 :: List.replicate 16 65 : List Nat).all
        fun b => decide (isNucByte b)) = true ∧
    (67 :: List.replicate 16 65 : List Nat).length = 17 ∧
    kmer_to_index (67 :: List.replicate 16 65) = Except.ok 0 ∧
    index_to_kmer 0 17 = List.replicate 17 65 ∧
    List.replicate 17 65
      ≠ (67 :: List.replicate 16 65 : List Nat).map (fun b => b &&& 223) := by
  refine ⟨by decide, by decide, rfl, by decide, by decide⟩

/-- C3 (amended): the round trips hold on the range that fits the `uint32`
coordinate type.  For every `1 ≤ k ≤ 16` and every index `i < 4 ^ k`,
`kmer_to_index (index_to_kmer i k) = i`; and for every byte string `s`
over the nucleotide alphabet (case-insensitive) with `len s ≤ 16`,
`index_to_kmer (kmer_to_index s) (len s)` is the uppercase form of `s`
(for the eight valid codes, uppercasing is the `& 0b11011111` mask the
encoder itself applies).  For `k = 17` the claim as stated fails — see the
truncation counterexample. -/
theorem kmer_index_roundtrip :
    (∀ k, 1 ≤ k → k ≤ 16 → ∀ i, i < 4 ^ k →
      kmer_to_index (index_to_kmer i k) = Except.ok i) ∧
    (∀ s : List Nat, s.length ≤ 16 → (∀ b ∈ s, isNucByte b) →
      ∃ n, kmer_to_index s = Except.ok n ∧
        index_to_kmer n s.length = s.map (fun b => b &&& 223)) := by
  constructor
  · intro k _ hk i hi
    exact kmerToIndexLoop_c_index_to_kmer k hk i hi
  · intro s hlen hval
    obtain ⟨n, h1, _, h3⟩ := encode_decode_aux s hlen hval
    exact ⟨n, h1, h3⟩

/-- Witness for the amended C3: index round trip at `k = 2`, `i = 9`
(decoding to `"GC"`), and string round trip on the mixed-case input
`"aC" = [97, 67]`. -/
theorem kmer_index_roundtrip_witness :
    kmer_to_index (index_to_kmer 9 2) = Except.ok 9 ∧
    ∃ n, kmer_to_index [97, 67] = Except.ok n ∧
      index_to_kmer n ([97, 67] : List Nat).length
        = ([97, 67] : List Nat).map (fun b => b &&& 223) :=
  ⟨kmer_index_roundtrip.1 2 (by decide) (by decide) 9 (by decide),
   kmer_index_roundtrip.2 [97, 67] (by decide) (by decide)⟩

/-! ### `CKmerSpec` index space size -/

/-- C8 (amended): for `1 ≤ k ≤ 15` the field `idx_len = 1 << (2 * k)`
equals the index space size `4 ^ k`.  At `k = 16` the claim as stated
fails: the shift is computed in 32-bit C `int` arithmetic, which cannot
represent `4 ^ 16 = 2 ^ 32` — see the `k = 16` counterexample. -/
theorem ckmerspec_idx_len_eq (k : Nat) (h1 : 1 ≤ k) (h2 : k ≤ 15) :
    ckmerspec_idx_len k = 4 ^ k := by
  unfold ckmerspec_idx_len
  have hsh : (1 : Nat) <<< (2 * k) = 4 ^ k := by
    rw [Nat.shiftLeft_eq, one_mul, pow_mul]
    norm_num
  have hlt : (4 : Nat) ^ k < 2 ^ 31 := by
    calc (4 : Nat) ^ k ≤ 4 ^ 15 := Nat.pow_le_pow_right (by norm_num) h2
    _ < 2 ^ 31 := by norm_num
  rw [hsh, Nat.mod_eq_of_lt (lt_trans hlt (by norm_num))]
  rw [if_pos hlt]
  push_cast
  norm_num

/-- Witness for the amended C8 at `k = 8`. -/
theorem ckmerspec_idx_len_eq_witness : ckmerspec_idx_len 8 = 4 ^ 8 :=
  ckmerspec_idx_len_eq 8 (by decide) (by decide)

/-- C8 counterexample: at `k = 16` — included by the claim as "the largest
k whose index space fits 32-bit coordinates" — the 32-bit `int` shift
`1 << 32` overflows (the model wraps it to `0`; no resolution of the C
undefined behaviour can yield `2 ^ 32`, which exceeds the 32-bit `int`
range), so `idx_len ≠ 4 ^ 16`. -/
theorem ckmerspec_idx_len_k16 :
    ckmerspec_idx_len 16 = 0 ∧ (0 : Int) ≠ 4 ^ 16 := by
  constructor
  · decide
  · norm_num

end Midas
